import Mathlib

/-!
# Verification of the Nova provider/commitment layer

Shallow embedding of the MSM backends, generator derivation (`from_label`),
commitment-engine operations and coordinate/transcript conversions of the
repository, together with proofs of the specification claims.

The curve arithmetic itself (field operations, point addition, the Pippenger
MSM kernel `halo2curves::msm::msm_best`, the blitzar accelerator kernel,
`hash_to_curve`, `batch_normalize`) lives in external libraries that the
repository consumes through interfaces; those externals are modelled by
their documented contracts, while every piece of glue logic that is in the
repository's own sources (wrappers, chunking, batching, defaults, parameter
tables, coordinate case analysis) is translated faithfully.
-/

namespace Nova

/-- Modelled from the spec: the external `halo2curves::msm::msm_best` kernel,
consumed (not built) by this repository; its contract is the naive
accumulation `Σ_i scalars[i] · bases[i]`, realised here as a left fold over
the zipped inputs (matching the repository's own reference loop in the
blitzar tests, `expected += bases[i] * scalars[i]`). -/
def msm_best {S G : Type} [AddCommMonoid G] [SMul S G]
    (scalars : List S) (bases : List G) : G :=
  (scalars.zip bases).foldl (fun acc p => acc + p.1 • p.2) 0

/-- CPU backend `vartime_multiscalar_mul` from
`src/provider/bn256_grumpkin.rs`: logs timestamps (irrelevant to the value)
and delegates to `msm_best`. -/
def vartime_multiscalar_mul {S G : Type} [AddCommMonoid G] [SMul S G]
    (scalars : List S) (bases : List G) : G :=
  msm_best scalars bases

/-- Modelled from the spec: the external blitzar accelerator entry point
`compute_bn254_g1_uncompressed_commitments_with_halo2_generators`; per its
contract (and the repository's blitzar tests) it overwrites the j-th output
slot with the MSM of the j-th scalar column against the shared generators. -/
def blitzar_compute_commitments {S G : Type} [AddCommMonoid G] [SMul S G]
    (cols : List (List S)) (bases : List G) : List G :=
  cols.map (fun col => msm_best col bases)

/-- Accelerator-backend wrapper `vartime_multiscalar_mul` from
`src/provider/blitzar.rs`: allocates a one-element output vector initialised
with `Point::default()` (the identity), has blitzar fill it from the single
scalar column, and returns slot 0. -/
def blitzar_vartime_multiscalar_mul {S G : Type} [AddCommMonoid G] [SMul S G]
    (scalars : List S) (bases : List G) : G :=
  (blitzar_compute_commitments [scalars] bases).getD 0 0

/-- The specification's naive accumulation `Σ_i scalars[i] · bases[i]`,
written as structural recursion on the two sequences (spec-side definition,
for comparison with the backends). -/
def naiveAccumulation {S G : Type} [AddCommMonoid G] [SMul S G] :
    List S → List G → G
  | [], _ => 0
  | _ :: _, [] => 0
  | s :: ss, b :: bs => s • b + naiveAccumulation ss bs

/-- CPU backend `batch_vartime_multiscalar_mul` from
`src/provider/bn256_grumpkin.rs`: a parallel, order-preserving map that runs
the single-MSM path on each scalar vector against the prefixed slice
`bases[..scalar.len()]` of the shared bases. -/
def batch_vartime_multiscalar_mul {S G : Type} [AddCommMonoid G] [SMul S G]
    (scalars : List (List S)) (bases : List G) : List G :=
  scalars.map (fun sc => vartime_multiscalar_mul sc (bases.take sc.length))

/-- Modelled from the spec: the accelerator batch strategy (referenced as
`blitzar::batch_vartime_multiscalar_mul`, not under src/) issues one call per
item to the single-item accelerator path, preserving order. -/
def blitzar_batch_vartime_multiscalar_mul {S G : Type} [AddCommMonoid G]
    [SMul S G] (scalars : List (List S)) (bases : List G) : List G :=
  scalars.map (fun sc =>
    blitzar_vartime_multiscalar_mul sc (bases.take sc.length))

/-- The default `multi_commit` of `CommitmentEngineTrait`
(`src/traits/commitment.rs`): maps the abstract `commit` of the engine over
the vectors, committing each with the same blind `r`. -/
def multi_commit {S CK C : Type} (commit : CK → List S → S → C) (ck : CK)
    (v : List (List S)) (r : S) : List C :=
  v.map (fun vi => commit ck vi r)

/-- Modelled from the spec: the commitment key of the commitment engine
(whose implementation lives in the repository's provider modules, not under
src/) — an ordered sequence of data generators plus one distinguished
blinding generator `h`. -/
structure CommitmentKey (G : Type) where
  gens : List G
  h : G

/-- Modelled from the spec: `commit(ck, v, r)` computes `Σ v_i · G_i + r · H`
via one MSM call over `v ++ [r]` against `G_0..G_{k-1}, H`; only the first
`len(v)` generators participate. -/
def commit {S G : Type} [AddCommMonoid G] [SMul S G] (ck : CommitmentKey G)
    (v : List S) (r : S) : G :=
  msm_best (v ++ [r]) (ck.gens.take v.length ++ [ck.h])

/-- Modelled from the spec: `derand_key(ck)` extracts the blinding generator
`H` alone. -/
def derand_key {G : Type} (ck : CommitmentKey G) : G :=
  ck.h

/-- Modelled from the spec: `derandomize(dk, commitment, r)` returns
`commitment - r · H`. -/
def derandomize {S G : Type} [SubtractionMonoid G] [SMul S G] (dk : G)
    (c : G) (r : S) : G :=
  c - r • dk

/-- The 32-byte seed for generator `i`: `from_label` reads the XOF stream of
the label sequentially, 32 bytes per generator, so seed `i` is exactly bytes
`[32i, 32i+32)` of the stream (the stream itself — Shake256 of the label —
is external and is a parameter here). -/
def xof_seed (stream : Nat → Nat) (i : Nat) : List Nat :=
  (List.range 32).map (fun j => stream (32 * i + j))

/-- The projective points of `from_label` before normalization: an
order-preserving parallel map hashing seed `i` to the curve (`hash_to_curve`
with the fixed domain string is external and is the parameter
`hashToCurve`). -/
def hash_gens_proj {P : Type} (stream : Nat → Nat) (hashToCurve : List Nat → P)
    (n : Nat) : List P :=
  (List.range n).map (fun i => hashToCurve (xof_seed stream i))

/-- Modelled from the spec: the external `halo2curves` `batch_normalize`,
whose contract is to write the affine form of the `i`-th input point to the
`i`-th output slot (the shared-inversion trick it uses internally does not
change the value). -/
def batch_normalize {P A : Type} (toAffine : P → A) (ps : List P) : List A :=
  ps.map toAffine

/-- Translation of `from_label` from `src/provider/bn256_grumpkin.rs`:
derive `n` seeds from the XOF stream, hash each to a projective point, then
normalize to affine — in one batch when `n ≤ num_threads`, otherwise in
`num_threads` contiguous chunks of size `⌈n / num_threads⌉` (the last chunk
capped at the end of the sequence), normalized independently and
concatenated in original order. -/
def from_label {P A : Type} (stream : Nat → Nat) (hashToCurve : List Nat → P)
    (toAffine : P → A) (num_threads n : Nat) : List A :=
  let gens_proj := hash_gens_proj stream hashToCurve n
  if num_threads < gens_proj.length then
    let chunk := (gens_proj.length + num_threads - 1) / num_threads
    (List.range num_threads).flatMap (fun i =>
      let start := i * chunk
      let stop := if i = num_threads - 1 then gens_proj.length
        else min ((i + 1) * chunk) gens_proj.length
      if start < stop then
        batch_normalize toAffine ((gens_proj.drop start).take (stop - start))
      else [])
  else
    batch_normalize toAffine gens_proj

/-- The BN254 (bn256) base-field modulus `q` — the decimal value of the hex
constant `30644e72...d87cfd47` appearing in the source. -/
def bnQ : Nat :=
  21888242871839275222246405745257275088696311157297823662689037894645226208583

/-- The BN254 scalar-field modulus / G1 group order `r` — the decimal value
of the hex constant `30644e72...f0000001` appearing in the source. -/
def bnR : Nat :=
  21888242871839275222246405745257275088548364400416034343698204186575808495617

/-- The bn256 base field `Fq`. -/
abbrev Fq := ZMod bnQ

/-- A bn256 point in canonical affine form: `none` is the point at infinity
(the identity), `some (x, y)` a finite point. -/
abbrev AffineForm := Option (Fq × Fq)

/-- Modelled from the spec: `coordinates()` of the external curve library on
an affine point — defined (`Some`) exactly for non-identity points. -/
def coordinates (p : AffineForm) : Option (Fq × Fq) := p

/-- The affine identity, `Bn256Affine::identity()`. -/
def affine_identity : AffineForm := none

/-- Translation of `to_coordinates` from `src/provider/bn256_grumpkin.rs`:
if the affine form of the point has coordinates (`is_some`) and differs from
the affine identity, return them with `is_infinity = false`; otherwise
return `(0, 0, true)`. -/
def to_coordinates (p : AffineForm) : Fq × Fq × Bool :=
  if h : (coordinates p).isSome ∧ p ≠ affine_identity then
    (((coordinates p).get h.1).1, ((coordinates p).get h.1).2, false)
  else (0, 0, true)

/-- The canonical 32-byte little-endian encoding of a base-field element
(the external `to_bytes`; modelled from the spec as the canonical byte
encoding of the canonical representative). -/
def fq_to_bytes (x : Fq) : List Nat :=
  (List.range 32).map (fun i => x.val / 256 ^ i % 256)

/-- Translation of `to_transcript_bytes` of
`TranscriptReprTrait for bn256::Affine` (`src/provider/bn256_grumpkin.rs`):
`self.coordinates().unwrap()` followed by concatenating the x- and
y-encodings; the `unwrap` panic on the identity is modelled as `none`. -/
def to_transcript_bytes (p : AffineForm) : Option (List Nat) :=
  (coordinates p).map (fun c => fq_to_bytes c.1 ++ fq_to_bytes c.2)

/-- Value of one lowercase hexadecimal digit, as `BigInt::from_str_radix`
assigns it on the well-formed constants of the source. -/
def hexDigit (c : Char) : Nat :=
  if c.toNat ≤ 57 then c.toNat - 48 else c.toNat - 87

/-- Evaluation of `BigInt::from_str_radix(s, 16)` on a well-formed lowercase
hex string (most-significant digit first). -/
def fromHexRadix16 (s : List Char) : Nat :=
  s.foldl (fun acc c => 16 * acc + hexDigit c) 0

/-- The order hex constant passed to `from_str_radix` in both
`impl Group for bn256::Point` and `impl Group for G2`. -/
def bn256_order_hex : List Char :=
  "30644e72e131a029b85045b68181585d2833e84879b9709143e1f593f0000001".toList

/-- The base-modulus hex constant passed to `from_str_radix` in both
`impl Group for bn256::Point` and `impl Group for G2`. -/
def bn256_base_hex : List Char :=
  "30644e72e131a029b85045b68181585d97816a916871ca8d3c208c16d87cfd47".toList

/-- Translation of `group_params` of `impl Group for bn256::Point`
(`src/provider/bn256_grumpkin.rs`): `(a(), b(), order, base)`, where the
external BN254 G1 curve constants are `a() = 0` and `b() = 3`
(`y² = x³ + 3` over `Fq`) and the two hex constants are parsed in radix
16. -/
def bn256_group_params : Fq × Fq × Nat × Nat :=
  (0, 3, fromHexRadix16 bn256_order_hex, fromHexRadix16 bn256_base_hex)

/-- Translation of `group_params` of `impl Group for G2`
(`src/provider/bn256_grumpkin.rs`): it calls `bn256::Point::a()` and
`bn256::Point::b()` and parses the same two hex constants — the G1
parameters, verbatim. -/
def G2_group_params : Fq × Fq × Nat × Nat :=
  (0, 3, fromHexRadix16 bn256_order_hex, fromHexRadix16 bn256_base_hex)

/-- Modelled from the spec: the `impl_traits!` macro expansion for grumpkin
(the macro lives in the repository's provider traits module, not under
src/): `group_params` returns `(a(), b(), order, base)` with the order and
base-modulus strings taken from the macro arguments — for grumpkin the
source passes the G1 base string as the order and the G1 order string as the
base — and the external grumpkin curve constants `a() = 0`, `b() = -17`
(`y² = x³ − 17` over the field of order `r`). -/
def grumpkin_group_params : ZMod bnR × ZMod bnR × Nat × Nat :=
  (0, -17, fromHexRadix16 bn256_base_hex, fromHexRadix16 bn256_order_hex)

/-- The quadratic extension `Fq2 = Fq[u]/(u² + 1)` over which the BN254 G2
twist is defined; the pair `(a, b)` stands for `a + b·u`. -/
abbrev Fq2 := Fq × Fq

/-- Multiplication in `Fq2` (with `u² = -1`). -/
def fq2Mul (a b : Fq2) : Fq2 :=
  (a.1 * b.1 - a.2 * b.2, a.1 * b.2 + a.2 * b.1)

/-- Embedding of `Fq` into `Fq2`. -/
def fq2OfFq (x : Fq) : Fq2 := (x, 0)

/-- Modelled from the spec: the defining equation of the BN254 G2 twist
coefficient — G2 is the curve `y² = x³ + b₂` over `Fq2` with
`b₂ = 3 / (9 + u)`, i.e. the unique `z` with `z · (9 + u) = 3`. -/
def isG2TwistB (z : Fq2) : Prop :=
  fq2Mul z (9, 1) = fq2OfFq 3

/-- The concrete value of the G2 twist coefficient `b₂ = 3 / (9 + u)`. -/
def g2TwistB : Fq2 :=
  (19485874751759354771024239261021720505790618469301721065564631296452457478373,
   266929791119991161246907387137283842545076965332900288569378510910307636690)

lemma msm_best_foldl_acc {S G : Type} [AddCommMonoid G] [SMul S G]
    (scalars : List S) (bases : List G) (a : G) :
    (scalars.zip bases).foldl (fun acc p => acc + p.1 • p.2) a =
      a + naiveAccumulation scalars bases := by
  induction scalars generalizing bases a with
  | nil => simp [naiveAccumulation]
  | cons s ss ih =>
    cases bases with
    | nil => simp [naiveAccumulation]
    | cons b bs =>
      simp only [List.zip_cons_cons, List.foldl_cons, naiveAccumulation]
      rw [ih, add_assoc]

lemma msm_best_eq_naive {S G : Type} [AddCommMonoid G] [SMul S G]
    (scalars : List S) (bases : List G) :
    msm_best scalars bases = naiveAccumulation scalars bases := by
  unfold msm_best
  rw [msm_best_foldl_acc, zero_add]

lemma msm_best_append_single {S G : Type} [AddCommMonoid G] [SMul S G]
    (v : List S) (l : List G) (r : S) (hG : G)
    (hlen : v.length = l.length) :
    msm_best (v ++ [r]) (l ++ [hG]) = msm_best v l + r • hG := by
  unfold msm_best
  rw [List.zip_append hlen, List.foldl_append]
  simp [msm_best_foldl_acc, msm_best_eq_naive]

lemma slice_guard_eq {P : Type} (l : List P) (start stop : Nat) :
    (if start < stop then (l.drop start).take (stop - start) else []) =
      (l.drop start).take (stop - start) := by
  by_cases h : start < stop
  · rw [if_pos h]
  · rw [if_neg h, Nat.sub_eq_zero_of_le (Nat.le_of_not_lt h), List.take_zero]

lemma slice_capped_eq {P : Type} (l : List P) (s c : Nat) :
    (l.drop s).take (min (s + c) l.length - s) = (l.drop s).take c := by
  rw [List.take_eq_take]
  simp only [List.length_drop]
  omega

lemma chunks_concat_take {P : Type} (l : List P) (c : Nat) :
    ∀ k, (List.range k).flatMap (fun i => (l.drop (i * c)).take c) =
      l.take (k * c) := by
  intro k
  induction k with
  | zero => simp
  | succ k ih =>
    rw [List.range_succ, List.flatMap_append, ih]
    simp only [List.flatMap_cons, List.flatMap_nil, List.append_nil]
    rw [← List.take_add, Nat.succ_mul]

lemma chunks_concat_eq {P : Type} (l : List P) (T : Nat) (hT : 1 ≤ T) :
    (List.range T).flatMap (fun i =>
      let start := i * ((l.length + T - 1) / T)
      let stop := if i = T - 1 then l.length
        else min ((i + 1) * ((l.length + T - 1) / T)) l.length
      if start < stop then (l.drop start).take (stop - start) else []) = l := by
  obtain ⟨t, rfl⟩ : ∃ t, T = t + 1 := ⟨T - 1, (Nat.succ_pred_eq_of_pos hT).symm⟩
  generalize (l.length + (t + 1) - 1) / (t + 1) = c
  rw [List.range_succ, List.flatMap_append]
  simp only [List.flatMap_cons, List.flatMap_nil, List.append_nil,
    Nat.add_sub_cancel]
  simp only [if_true]
  rw [slice_guard_eq]
  have hdrop : (l.drop (t * c)).take (l.length - t * c) = l.drop (t * c) :=
    List.take_of_length_le (by rw [List.length_drop])
  rw [hdrop]
  conv_rhs => rw [← List.take_append_drop (t * c) l]
  congr 1
  rw [← chunks_concat_take l c t]
  apply List.flatMap_congr
  intro i hi
  have hit : ¬(i = t) := Nat.ne_of_lt (List.mem_range.mp hi)
  rw [if_neg hit, slice_guard_eq]
  have hsm : (i + 1) * c = i * c + c := by ring
  rw [hsm, slice_capped_eq]

/-- The central `from_label` characterization: for any worker count
`num_threads ≥ 1`, the output equals the single-batch normalization of the
`n` hash-to-curve points, i.e. the order-preserving map
`i ↦ toAffine (hashToCurve (seed i))` over `i < n`. -/
lemma from_label_eq_map {P A : Type} (stream : Nat → Nat)
    (hashToCurve : List Nat → P) (toAffine : P → A) (T n : Nat)
    (hT : 1 ≤ T) :
    from_label stream hashToCurve toAffine T n =
      (List.range n).map (fun i => toAffine (hashToCurve (xof_seed stream i))) := by
  unfold from_label
  simp only []
  by_cases hbig : T < (hash_gens_proj stream hashToCurve n).length
  · rw [if_pos hbig]
    have hmap : ∀ (g : List P),
        (List.range T).flatMap (fun i =>
          let start := i * ((g.length + T - 1) / T)
          let stop := if i = T - 1 then g.length
            else min ((i + 1) * ((g.length + T - 1) / T)) g.length
          if start < stop then
            batch_normalize toAffine ((g.drop start).take (stop - start))
          else []) =
        ((List.range T).flatMap (fun i =>
          let start := i * ((g.length + T - 1) / T)
          let stop := if i = T - 1 then g.length
            else min ((i + 1) * ((g.length + T - 1) / T)) g.length
          if start < stop then (g.drop start).take (stop - start)
          else [])).map toAffine := by
      intro g
      rw [List.map_flatMap]
      apply List.flatMap_congr
      intro i _
      by_cases h : i * ((g.length + T - 1) / T) <
          (if i = T - 1 then g.length
            else min ((i + 1) * ((g.length + T - 1) / T)) g.length)
      · simp only [if_pos h, batch_normalize]
      · simp only [if_neg h, List.map_nil]
    rw [hmap, chunks_concat_eq _ T hT]
    unfold hash_gens_proj
    rw [List.map_map]
    rfl
  · rw [if_neg hbig]
    unfold batch_normalize hash_gens_proj
    rw [List.map_map]
    rfl

/-- Claim C1: for equal-length inputs both the CPU backend and the blitzar
accelerator backend of `vartime_multiscalar_mul` return the naive
accumulation `Σ_i scalars[i] · bases[i]`. -/
theorem vartime_multiscalar_mul_eq_naive {S G : Type} [AddCommMonoid G]
    [SMul S G] (scalars : List S) (bases : List G)
    (h : scalars.length = bases.length) :
    vartime_multiscalar_mul scalars bases = naiveAccumulation scalars bases ∧
      blitzar_vartime_multiscalar_mul scalars bases =
        naiveAccumulation scalars bases := by
  refine ⟨msm_best_eq_naive scalars bases, ?_⟩
  simp [blitzar_vartime_multiscalar_mul, blitzar_compute_commitments,
    msm_best_eq_naive]

/-- Witness for C1 at a concrete input (integers as the group, k = 2). -/
theorem vartime_multiscalar_mul_eq_naive_witness :
    vartime_multiscalar_mul ([2, 3] : List ℤ) ([5, 7] : List ℤ) =
        naiveAccumulation ([2, 3] : List ℤ) ([5, 7] : List ℤ) ∧
      blitzar_vartime_multiscalar_mul ([2, 3] : List ℤ) ([5, 7] : List ℤ) =
        naiveAccumulation ([2, 3] : List ℤ) ([5, 7] : List ℤ) :=
  vartime_multiscalar_mul_eq_naive [2, 3] [5, 7] (by decide)

/-- Claim C6: on the empty input (k = 0) both backends return the group
identity. -/
theorem vartime_multiscalar_mul_empty {S G : Type} [AddCommMonoid G]
    [SMul S G] :
    vartime_multiscalar_mul ([] : List S) ([] : List G) = 0 ∧
      blitzar_vartime_multiscalar_mul ([] : List S) ([] : List G) = 0 := by
  constructor
  · rfl
  · rfl

/-- Claim C4: the batch MSM returns exactly `m` results, in input order, the
j-th being the single-MSM result over the slice of the bases of that
vector's length — for the CPU batch strategy and the accelerator batch
strategy. -/
theorem batch_vartime_multiscalar_mul_spec {S G : Type} [AddCommMonoid G]
    [SMul S G] (scalars : List (List S)) (bases : List G)
    (hlen : ∀ sc ∈ scalars, sc.length ≤ bases.length) :
    (batch_vartime_multiscalar_mul scalars bases).length = scalars.length ∧
      (blitzar_batch_vartime_multiscalar_mul scalars bases).length =
        scalars.length ∧
      ∀ j : Fin scalars.length,
        (batch_vartime_multiscalar_mul scalars bases).get
            (Fin.cast
              (show scalars.length =
                  (batch_vartime_multiscalar_mul scalars bases).length by
                simp [batch_vartime_multiscalar_mul]) j) =
          vartime_multiscalar_mul (scalars.get j)
            (bases.take (scalars.get j).length) ∧
        (blitzar_batch_vartime_multiscalar_mul scalars bases).get
            (Fin.cast
              (show scalars.length =
                  (blitzar_batch_vartime_multiscalar_mul
                    scalars bases).length by
                simp [blitzar_batch_vartime_multiscalar_mul]) j) =
          blitzar_vartime_multiscalar_mul (scalars.get j)
            (bases.take (scalars.get j).length) := by
  refine ⟨by simp [batch_vartime_multiscalar_mul],
    by simp [blitzar_batch_vartime_multiscalar_mul], ?_⟩
  intro j
  constructor
  · simp [batch_vartime_multiscalar_mul, List.get_eq_getElem]
  · simp [blitzar_batch_vartime_multiscalar_mul, List.get_eq_getElem]

/-- Witness for C4 at a concrete input (two scalar vectors over ℤ). -/
theorem batch_vartime_multiscalar_mul_spec_witness :
    (∀ sc ∈ ([[2, 3], [4]] : List (List ℤ)),
        sc.length ≤ ([5, 7] : List ℤ).length) ∧
      (batch_vartime_multiscalar_mul ([[2, 3], [4]] : List (List ℤ))
          ([5, 7] : List ℤ)).length = 2 :=
  ⟨by decide,
    (batch_vartime_multiscalar_mul_spec [[2, 3], [4]] [5, 7] (by decide)).1⟩

/-- Claim C7: `multi_commit` returns one commitment per input vector, in
order, the i-th equal to an independent `commit` call on the i-th vector
with the same blind `r`. -/
theorem multi_commit_spec {S CK C : Type} (commit : CK → List S → S → C)
    (ck : CK) (v : List (List S)) (r : S) :
    (multi_commit commit ck v r).length = v.length ∧
      ∀ i : Fin v.length,
        (multi_commit commit ck v r).get
            (Fin.cast
              (show v.length = (multi_commit commit ck v r).length by
                simp [multi_commit]) i) =
          commit ck (v.get i) r := by
  refine ⟨by simp [multi_commit], ?_⟩
  intro i
  simp [multi_commit, List.get_eq_getElem]

/-- Claim C2: removing the blind used at commitment time yields the
commitment with blind zero: `derandomize (derand_key ck) (commit ck v r) r =
commit ck v 0`, for any vector not longer than the key's capacity. -/
theorem derandomize_commit {S G : Type} [Ring S] [AddCommGroup G]
    [Module S G] (ck : CommitmentKey G) (v : List S) (r : S)
    (hcap : v.length ≤ ck.gens.length) :
    derandomize (derand_key ck) (commit ck v r) r = commit ck v 0 := by
  have hlen : v.length = (ck.gens.take v.length).length := by
    simp [List.length_take, Nat.min_eq_left hcap]
  unfold derandomize derand_key commit
  rw [msm_best_append_single v _ r ck.h hlen,
    msm_best_append_single v _ (0 : S) ck.h hlen]
  simp

/-- Witness for C2 at a concrete key and vector (integers as the group). -/
theorem derandomize_commit_witness :
    derandomize (derand_key ⟨[5, 7], 11⟩)
        (commit (⟨[5, 7], 11⟩ : CommitmentKey ℤ) [2] (3 : ℤ)) 3 =
      commit (⟨[5, 7], 11⟩ : CommitmentKey ℤ) [2] 0 :=
  derandomize_commit ⟨[5, 7], 11⟩ [2] 3 (by decide)

/-- Claim C3: `from_label` returns exactly `n` affine points that are, in
order, the batch-normalization of the `n` hash-to-curve points of the seeds;
the chunked normalization path coincides with single-batch normalization, so
the output is independent of the worker count (the right-hand side does not
mention `num_threads`). -/
theorem from_label_batch_normalization {P A : Type} (stream : Nat → Nat)
    (hashToCurve : List Nat → P) (toAffine : P → A) (T n : Nat)
    (hT : 1 ≤ T) :
    (from_label stream hashToCurve toAffine T n).length = n ∧
      from_label stream hashToCurve toAffine T n =
        batch_normalize toAffine (hash_gens_proj stream hashToCurve n) := by
  have h := from_label_eq_map stream hashToCurve toAffine T n hT
  constructor
  · rw [h, List.length_map, List.length_range]
  · rw [h]
    unfold batch_normalize hash_gens_proj
    rw [List.map_map]
    rfl

/-- Witness for C3 at a concrete input (`n = 5` points, `2` workers, so the
chunked path is exercised). -/
theorem from_label_batch_normalization_witness :
    (from_label (fun k => k) (fun l => l.sum) (fun x => 2 * x) 2 5).length =
        5 ∧
      from_label (fun k => k) (fun l => l.sum) (fun x => 2 * x) 2 5 =
        batch_normalize (fun x => 2 * x)
          (hash_gens_proj (fun k => k) (fun l => l.sum) 5) :=
  from_label_batch_normalization (fun k => k) (fun l => l.sum)
    (fun x => 2 * x) 2 5 (by decide)

/-- Claim C5: generator `i` of `from_label` is derived from exactly bytes
`[32i, 32i+32)` of the XOF stream — it is unchanged under any modification
of the stream outside that window, and is independent of `n` and of the
worker count; consequently derivations with lengths `n` and `n2` agree on
their first `min n n2` entries. -/
theorem from_label_seed_window {P A : Type} (stream stream2 : Nat → Nat)
    (hashToCurve : List Nat → P) (toAffine : P → A) (T T2 n n2 i : Nat)
    (hT : 1 ≤ T) (hT2 : 1 ≤ T2) (hi : i < n) (hi2 : i < n2)
    (hagree : ∀ j, j < 32 → stream (32 * i + j) = stream2 (32 * i + j)) :
    (from_label stream hashToCurve toAffine T n)[i]? =
        some (toAffine (hashToCurve (xof_seed stream i))) ∧
      (from_label stream hashToCurve toAffine T n)[i]? =
        (from_label stream2 hashToCurve toAffine T2 n2)[i]? ∧
      (from_label stream hashToCurve toAffine T n).take (min n n2) =
        (from_label stream hashToCurve toAffine T2 n2).take (min n n2) := by
  have h1 := from_label_eq_map stream hashToCurve toAffine T n hT
  have h2 := from_label_eq_map stream2 hashToCurve toAffine T2 n2 hT2
  have h3 := from_label_eq_map stream hashToCurve toAffine T2 n2 hT2
  have hseed : xof_seed stream i = xof_seed stream2 i := by
    unfold xof_seed
    apply List.map_congr_left
    intro j hj
    exact hagree j (List.mem_range.mp hj)
  refine ⟨?_, ?_, ?_⟩
  · rw [h1, List.getElem?_map, List.getElem?_range hi]
    rfl
  · rw [h1, h2, List.getElem?_map, List.getElem?_map,
      List.getElem?_range hi, List.getElem?_range hi2]
    simp [hseed]
  · rw [h1, h3, ← List.map_take, ← List.map_take, List.take_range,
      List.take_range]
    have hm1 : min (min n n2) n = min n n2 := by omega
    have hm2 : min (min n n2) n2 = min n n2 := by omega
    rw [hm1, hm2]

/-- Witness for C5 at a concrete input (`i = 1`, lengths 3 and 5, worker
counts 2 and 3). -/
theorem from_label_seed_window_witness :
    (from_label (fun k => k) (fun l => l.sum) (fun x => 2 * x) 2 3)[1]? =
        some ((fun x => 2 * x)
          ((fun l => l.sum) (xof_seed (fun k => k) 1))) ∧
      (from_label (fun k => k) (fun l => l.sum) (fun x => 2 * x) 2 3)[1]? =
        (from_label (fun k => k) (fun l => l.sum) (fun x => 2 * x) 3 5)[1]? ∧
      (from_label (fun k => k) (fun l => l.sum) (fun x => 2 * x) 2 3).take
          (min 3 5) =
        (from_label (fun k => k) (fun l => l.sum) (fun x => 2 * x) 3 5).take
          (min 3 5) :=
  from_label_seed_window (fun k => k) (fun k => k) (fun l => l.sum)
    (fun x => 2 * x) 2 3 3 5 1 (by decide) (by decide) (by decide) (by decide)
    (fun _ _ => rfl)

/-- Claim C8: `to_coordinates` reports `(0, 0, is_infinity = true)` exactly
on the identity, and reports the affine coordinates with
`is_infinity = false` on every non-identity point. -/
theorem to_coordinates_identity_iff (p : AffineForm) :
    (to_coordinates p = (0, 0, true) ↔ p = affine_identity) ∧
      ∀ x y : Fq, p = some (x, y) → to_coordinates p = (x, y, false) := by
  cases p with
  | none =>
    refine ⟨?_, ?_⟩
    · simp [to_coordinates, coordinates, affine_identity]
    · intro x y hxy
      exact absurd hxy (by simp)
  | some xy =>
    obtain ⟨x, y⟩ := xy
    have hval : to_coordinates (some (x, y)) = (x, y, false) := by
      unfold to_coordinates
      rw [dif_pos ⟨by simp [coordinates], by simp [affine_identity]⟩]
      rfl
    refine ⟨?_, ?_⟩
    · rw [hval]
      simp [affine_identity]
    · intro a b hab
      rw [hval]
      obtain ⟨rfl, rfl⟩ : x = a ∧ y = b := by
        injection hab with h2
        exact ⟨congrArg Prod.fst h2, congrArg Prod.snd h2⟩
      rfl

/-- Witness for C8 at a concrete non-identity affine form. -/
theorem to_coordinates_identity_iff_witness :
    to_coordinates (some (1, 2) : AffineForm) = (1, 2, false) :=
  (to_coordinates_identity_iff (some (1, 2))).2 1 2 rfl

/-- Claim C10: `to_transcript_bytes` on a bn256 affine point diverges
(unwrap panic, modelled as `none`) exactly on the identity, and on every
finite point returns the concatenation of the canonical encodings of x and
y. -/
theorem to_transcript_bytes_spec :
    to_transcript_bytes affine_identity = none ∧
      ∀ x y : Fq, to_transcript_bytes (some (x, y)) =
        some (fq_to_bytes x ++ fq_to_bytes y) :=
  ⟨rfl, fun _ _ => rfl⟩

/-- C9 counterexample: the claim fails at the concrete instance `G2` — the
coefficient `B` returned by `G2::group_params` is the G1 constant `3`,
which (embedded into G2's base field `Fq2`) does not satisfy the defining
equation of G2's own short-Weierstrass coefficient `b₂ = 3/(9 + u)`. -/
theorem G2_group_params_not_own :
    ¬ isG2TwistB (fq2OfFq G2_group_params.2.1) := by
  unfold isG2TwistB fq2Mul fq2OfFq G2_group_params
  intro h
  have h2 := congrArg Prod.snd h
  simp only [] at h2
  rw [show ((3 : Fq) * 1 + 0 * 9) = 3 by ring] at h2
  exact absurd h2 (by decide)

/-- Claim C9 amended: `bn256::Point::group_params` and (spec-modelled)
`grumpkin::Point::group_params` do return their own curves' parameters
`(A, B, order, base-field-modulus)` — `(0, 3, r, q)` and `(0, −17, q, r)`
respectively, the hex constants parsing to the true moduli — but
`G2::group_params` returns a verbatim copy of the G1 parameters, not G2's
own twist coefficient `b₂ = 3/(9 + u)` over `Fq2`. -/
theorem group_params_amended :
    bn256_group_params = (0, 3, bnR, bnQ) ∧
      grumpkin_group_params = (0, -17, bnQ, bnR) ∧
      G2_group_params = bn256_group_params ∧
      isG2TwistB g2TwistB ∧
      g2TwistB ≠ fq2OfFq G2_group_params.2.1 := by
  refine ⟨?_, ?_, rfl, ?_, ?_⟩
  · unfold bn256_group_params bn256_order_hex bn256_base_hex fromHexRadix16
      hexDigit bnR bnQ
    decide
  · unfold grumpkin_group_params bn256_order_hex bn256_base_hex fromHexRadix16
      hexDigit bnR bnQ
    decide
  · unfold isG2TwistB g2TwistB fq2Mul fq2OfFq
    decide
  · unfold g2TwistB fq2OfFq G2_group_params
    decide

end Nova
